import Mathlib

/-!
Verification of the GLDfish resolution-and-alignment core.

The Python source is shallowly embedded: floats are modelled as exact
rationals, dicts as association lists or explicit lookup functions,
raised exceptions as `Option`/sum results, and calendar timestamps as
abstract types or epoch-day integers where the code only compares or
shifts them.  Each definition mirrors one function of the repository
(`src/utils.py`, `src/data_fetcher.py`); its doc comment names it.
-/

namespace GLDfish

/-! ### Digit strings

Helpers for the fixed-width decimal fields of an option symbol
(`YYMMDD` date, 8-digit strike).  `natDigits w n` is Python's
zero-padded formatting of `n` to width `w`; `digitsVal` reads a digit
string back as a number. -/

def isDigit (c : Char) : Bool :=
  c == '0' || c == '1' || c == '2' || c == '3' || c == '4' ||
  c == '5' || c == '6' || c == '7' || c == '8' || c == '9'

def digitVal (c : Char) : Nat := c.toNat - 48

def digitChar (n : Nat) : Char :=
  match n with
  | 0 => '0' | 1 => '1' | 2 => '2' | 3 => '3' | 4 => '4'
  | 5 => '5' | 6 => '6' | 7 => '7' | 8 => '8' | _ => '9'

def natDigits : Nat → Nat → List Char
  | 0, _ => []
  | w + 1, n => natDigits w (n / 10) ++ [digitChar (n % 10)]

def digitsVal (l : List Char) : Nat :=
  l.foldl (fun a c => a * 10 + digitVal c) 0

structure ContractId where
  ticker : List Char
  year : Nat
  month : Nat
  day : Nat
  isCall : Bool
  strike : ℚ
deriving DecidableEq

/-- Numeric parse of one fixed-width field: Python `int`/`float` on a
slice, restricted to plain digit strings (anything else raises, i.e.
`none`). -/
def parseDigits (l : List Char) : Option Nat :=
  if l.isEmpty then none
  else if l.all isDigit then some (digitsVal l) else none

/-- `UnusualWhalesClient.parse_option_symbol`: reject symbols shorter
than 15 characters, then read the last 8 characters as strike ×1000,
the 9th-from-end character as side (call iff `'C'`), the preceding 6 as
`YYMMDD` with the year offset from 2000, and everything before that as
ticker.  The redundant `symbol` echo field of the Python dict is
dropped. -/
def parse_option_symbol (s : List Char) : Option ContractId :=
  if s.length < 15 then none
  else
    let strike_str := s.drop (s.length - 8)
    let type_char := s.getD (s.length - 9) 'P'
    let date_str := (s.drop (s.length - 15)).take 6
    let ticker := s.take (s.length - 15)
    match parseDigits strike_str, parseDigits (date_str.take 2),
        parseDigits ((date_str.drop 2).take 2), parseDigits (date_str.drop 4) with
    | some strikeInt, some yy, some mm, some dd =>
        some { ticker := ticker, year := 2000 + yy, month := mm, day := dd,
               isCall := type_char == 'C', strike := (strikeInt : ℚ) / 1000 }
    | _, _, _, _ => none

theorem symbol_drop_strike (t ds ks : List Char) (sc : Char) (h6 : ds.length = 6) :
    (t ++ ds ++ [sc] ++ ks).drop (t.length + 15 - 8) = ks := by
  apply List.drop_left'
  simp [h6]

theorem symbol_take_ticker (t ds ks : List Char) (sc : Char) :
    (t ++ ds ++ [sc] ++ ks).take (t.length + 15 - 15) = t := by
  simp only [List.append_assoc]
  apply List.take_left'
  omega

theorem symbol_date_str (t ds ks : List Char) (sc : Char) (h6 : ds.length = 6) :
    ((t ++ ds ++ [sc] ++ ks).drop (t.length + 15 - 15)).take 6 = ds := by
  simp only [List.append_assoc]
  rw [show t.length + 15 - 15 = t.length from rfl, List.drop_left]
  exact List.take_left' h6

theorem symbol_type_char (t ds ks : List Char) (sc : Char) (h6 : ds.length = 6) :
    (t ++ ds ++ [sc] ++ ks).getD (t.length + 15 - 9) 'P' = sc := by
  simp only [List.append_assoc]
  rw [List.getD_append_right _ _ _ _ (by omega)]
  rw [show t.length + 15 - 9 - t.length = 6 from by omega]
  rw [List.getD_append_right _ _ _ _ (by omega)]
  rw [show 6 - ds.length = 0 from by omega]
  rfl

theorem ne_nil_of_length_eq {l : List Char} {n : Nat} (h : l.length = n) (hn : n ≠ 0) :
    l ≠ [] := by
  intro hl
  rw [hl] at h
  simp at h
  omega

theorem parseDigits_eq_some (l : List Char) (h0 : l ≠ [])
    (h : ∀ c ∈ l, isDigit c = true) : parseDigits l = some (digitsVal l) := by
  rw [parseDigits, if_neg (by simpa [List.isEmpty_iff] using h0),
    if_pos (List.all_eq_true.mpr h)]

/-- Decoding a symbol split into its positional fields: `parse_option_symbol`
on `ticker ++ 6 date digits ++ side char ++ 8 strike digits` succeeds and
fills each field from its slice. -/
theorem parse_symbol_fields (t ds ks : List Char) (sc : Char)
    (h6 : ds.length = 6) (h8 : ks.length = 8)
    (hds : ∀ c ∈ ds, isDigit c = true) (hks : ∀ c ∈ ks, isDigit c = true) :
    parse_option_symbol (t ++ ds ++ [sc] ++ ks) =
      some { ticker := t, year := 2000 + digitsVal (ds.take 2),
             month := digitsVal ((ds.drop 2).take 2), day := digitsVal (ds.drop 4),
             isCall := sc == 'C', strike := (digitsVal ks : ℚ) / 1000 } := by
  have hs : (t ++ ds ++ [sc] ++ ks).length = t.length + 15 := by simp [h6, h8]
  have htk2 : (ds.take 2).length = 2 := by rw [List.length_take, h6]; decide
  have hdt2 : ((ds.drop 2).take 2).length = 2 := by
    rw [List.length_take, List.length_drop, h6]; decide
  have hd4 : (ds.drop 4).length = 2 := by rw [List.length_drop, h6]
  simp only [parse_option_symbol, hs]
  rw [if_neg (by omega)]
  rw [symbol_drop_strike t ds ks sc h6, symbol_type_char t ds ks sc h6,
    symbol_date_str t ds ks sc h6, symbol_take_ticker t ds ks sc]
  rw [parseDigits_eq_some ks (ne_nil_of_length_eq h8 (by omega)) hks,
    parseDigits_eq_some (ds.take 2) (ne_nil_of_length_eq htk2 (by omega))
      (fun c hc => hds c (List.take_subset 2 ds hc)),
    parseDigits_eq_some ((ds.drop 2).take 2) (ne_nil_of_length_eq hdt2 (by omega))
      (fun c hc => hds c (List.drop_subset 2 ds (List.take_subset 2 _ hc))),
    parseDigits_eq_some (ds.drop 4) (ne_nil_of_length_eq hd4 (by omega))
      (fun c hc => hds c (List.drop_subset 4 ds hc))]

/-- C2: for every input string, `parse_option_symbol` fails
(`MalformedSymbol`, modelled `none`) when the string is shorter than 15
characters; otherwise (on digit-valid fields) it returns a contract
whose strike is the last 8 characters divided by 1000, whose side is
call exactly when the 9th-from-end character is `'C'` (put for any
other character), whose expiration reads the preceding 6 characters as
YYMMDD with year offset from 2000, and whose ticker is everything
before that; in particular `AAPL251017C00150000` decodes to
AAPL / 2025-10-17 / call / 150.0. -/
theorem C2_parse_option_symbol :
    (∀ s : List Char, s.length < 15 → parse_option_symbol s = none) ∧
    (∀ (t ds ks : List Char) (sc : Char), ds.length = 6 → ks.length = 8 →
      (∀ c ∈ ds, isDigit c = true) → (∀ c ∈ ks, isDigit c = true) →
      parse_option_symbol (t ++ ds ++ [sc] ++ ks) =
        some { ticker := t, year := 2000 + digitsVal (ds.take 2),
               month := digitsVal ((ds.drop 2).take 2), day := digitsVal (ds.drop 4),
               isCall := sc == 'C', strike := (digitsVal ks : ℚ) / 1000 }) ∧
    parse_option_symbol ("AAPL251017C00150000".toList) =
      some { ticker := "AAPL".toList, year := 2025, month := 10, day := 17,
             isCall := true, strike := 150 } := by
  refine ⟨?_, ?_, ?_⟩
  · intro s h
    simp [parse_option_symbol, h]
  · intro t ds ks sc h6 h8 hds hks
    exact parse_symbol_fields t ds ks sc h6 h8 hds hks
  · have hdecomp : ("AAPL251017C00150000".toList) =
        "AAPL".toList ++ "251017".toList ++ ['C'] ++ "00150000".toList := by decide
    rw [hdecomp, parse_symbol_fields _ _ _ _ (by decide) (by decide) (by decide) (by decide)]
    have e1 : digitsVal (("251017".toList).take 2) = 25 := by decide
    have e2 : digitsVal ((("251017".toList).drop 2).take 2) = 10 := by decide
    have e3 : digitsVal (("251017".toList).drop 4) = 17 := by decide
    have e4 : digitsVal ("00150000".toList) = 150000 := by decide
    rw [e1, e2, e3, e4]
    simp only [Option.some.injEq, ContractId.mk.injEq]
    norm_num

theorem C2_parse_option_symbol_witness :
    parse_option_symbol ("AB".toList) = none ∧
    parse_option_symbol ("XY".toList ++ "990101".toList ++ ['Q'] ++ "00005000".toList) =
      some { ticker := "XY".toList, year := 2000 + digitsVal (("990101".toList).take 2),
             month := digitsVal ((("990101".toList).drop 2).take 2),
             day := digitsVal (("990101".toList).drop 4),
             isCall := ('Q' == 'C'), strike := (digitsVal ("00005000".toList) : ℚ) / 1000 } :=
  ⟨C2_parse_option_symbol.1 _ (by decide),
   C2_parse_option_symbol.2.1 _ _ _ _ (by decide) (by decide) (by decide) (by decide)⟩

/-- Key ordering on (strike, iv) pairs. -/
def keyLE (p q : ℚ × ℚ) : Prop := p.1 ≤ q.1

instance : DecidableRel keyLE := fun p q => inferInstanceAs (Decidable (p.1 ≤ q.1))

instance : IsTotal (ℚ × ℚ) keyLE := ⟨fun p q => le_total p.1 q.1⟩

instance : IsTrans (ℚ × ℚ) keyLE := ⟨fun _ _ _ => le_trans⟩

/-- Final value of the `lower_strike` loop variable: the last pair in
iteration order with strike ≤ spot. -/
def lastLE (spot : ℚ) : List (ℚ × ℚ) → Option (ℚ × ℚ)
  | [] => none
  | p :: rest =>
    match lastLE spot rest with
    | some q => some q
    | none => if p.1 ≤ spot then some p else none

/-- Final value of the `upper_strike` loop variable: the first pair in
iteration order with strike > spot. -/
def firstGT (spot : ℚ) : List (ℚ × ℚ) → Option (ℚ × ℚ)
  | [] => none
  | p :: rest => if spot < p.1 then some p else firstGT spot rest

/-- `interpolate_iv`: `none` on an empty table; the lowest (highest)
strike's IV when spot is below (above) the whole range; otherwise the
linear interpolation between the bracketing strikes.  The unreachable
`lower == upper` branch of the source is kept verbatim. -/
def interpolate_iv (spot : ℚ) (tbl : List (ℚ × ℚ)) : Option ℚ :=
  if tbl.isEmpty then none
  else
    let sortedTbl := tbl.insertionSort keyLE
    match lastLE spot sortedTbl, firstGT spot sortedTbl with
    | none, _ => (sortedTbl.head?).map Prod.snd
    | some _, none => (sortedTbl.getLast?).map Prod.snd
    | some lp, some up =>
      if lp.1 = up.1 then some lp.2
      else some (lp.2 + (spot - lp.1) / (up.1 - lp.1) * (up.2 - lp.2))

theorem lastLE_eq_none {spot : ℚ} {l : List (ℚ × ℚ)} :
    lastLE spot l = none ↔ ∀ p ∈ l, spot < p.1 := by
  induction l with
  | nil => simp [lastLE]
  | cons p rest ih =>
    simp only [lastLE]
    cases h : lastLE spot rest with
    | some q =>
      simp only [reduceCtorEq, false_iff]
      intro hall
      have : ∀ r ∈ rest, spot < r.1 := fun r hr => hall r (by simp [hr])
      rw [ih.mpr this] at h
      exact Option.noConfusion h
    | none =>
      have hrest := ih.mp h
      constructor
      · intro hif r hr
        rcases List.mem_cons.mp hr with rfl | hr
        · by_contra hle
          rw [if_pos (le_of_not_lt hle)] at hif
          exact Option.noConfusion hif
        · exact hrest r hr
      · intro hall
        rw [if_neg (not_le_of_lt (hall p (by simp)))]

theorem lastLE_eq_some {spot : ℚ} {l : List (ℚ × ℚ)} {p : ℚ × ℚ}
    (h : lastLE spot l = some p) : p ∈ l ∧ p.1 ≤ spot := by
  induction l with
  | nil => simp [lastLE] at h
  | cons q rest ih =>
    simp only [lastLE] at h
    cases hr : lastLE spot rest with
    | some r =>
      rw [hr] at h
      obtain rfl : r = p := Option.some.inj h
      obtain ⟨hm, hle⟩ := ih hr
      exact ⟨by simp [hm], hle⟩
    | none =>
      rw [hr] at h
      by_cases hq : q.1 ≤ spot
      · rw [if_pos hq] at h
        obtain rfl : q = p := Option.some.inj h
        exact ⟨by simp, hq⟩
      · rw [if_neg hq] at h
        exact Option.noConfusion h

theorem lastLE_max {spot : ℚ} {l : List (ℚ × ℚ)} {p : ℚ × ℚ}
    (hsort : l.Pairwise keyLE) (h : lastLE spot l = some p) :
    ∀ q ∈ l, q.1 ≤ spot → q.1 ≤ p.1 := by
  induction l with
  | nil => simp [lastLE] at h
  | cons x rest ih =>
    rw [List.pairwise_cons] at hsort
    simp only [lastLE] at h
    intro q hq hqs
    cases hr : lastLE spot rest with
    | some r =>
      rw [hr] at h
      obtain rfl : r = p := Option.some.inj h
      rcases List.mem_cons.mp hq with rfl | hq
      · exact hsort.1 _ (lastLE_eq_some hr).1
      · exact ih hsort.2 hr q hq hqs
    | none =>
      rw [hr] at h
      by_cases hx : x.1 ≤ spot
      · rw [if_pos hx] at h
        obtain rfl : x = p := Option.some.inj h
        rcases List.mem_cons.mp hq with rfl | hq
        · exact le_refl _
        · exact absurd hqs (not_le_of_lt (lastLE_eq_none.mp hr q hq))
      · rw [if_neg hx] at h
        exact Option.noConfusion h

theorem firstGT_eq_none {spot : ℚ} {l : List (ℚ × ℚ)} :
    firstGT spot l = none ↔ ∀ p ∈ l, p.1 ≤ spot := by
  induction l with
  | nil => simp [firstGT]
  | cons p rest ih =>
    simp only [firstGT]
    by_cases hp : spot < p.1
    · rw [if_pos hp]
      simp only [reduceCtorEq, false_iff]
      intro hall
      exact absurd (hall p (by simp)) (not_le_of_lt hp)
    · rw [if_neg hp]
      rw [ih]
      constructor
      · intro hall q hq
        rcases List.mem_cons.mp hq with rfl | hq
        · exact le_of_not_lt hp
        · exact hall q hq
      · intro hall q hq
        exact hall q (by simp [hq])

theorem firstGT_eq_some {spot : ℚ} {l : List (ℚ × ℚ)} {p : ℚ × ℚ}
    (h : firstGT spot l = some p) : p ∈ l ∧ spot < p.1 := by
  induction l with
  | nil => simp [firstGT] at h
  | cons q rest ih =>
    simp only [firstGT] at h
    by_cases hq : spot < q.1
    · rw [if_pos hq] at h
      obtain rfl : q = p := Option.some.inj h
      exact ⟨by simp, hq⟩
    · rw [if_neg hq] at h
      obtain ⟨hm, hlt⟩ := ih h
      exact ⟨by simp [hm], hlt⟩

theorem firstGT_min {spot : ℚ} {l : List (ℚ × ℚ)} {p : ℚ × ℚ}
    (hsort : l.Pairwise keyLE) (h : firstGT spot l = some p) :
    ∀ q ∈ l, spot < q.1 → p.1 ≤ q.1 := by
  induction l with
  | nil => simp [firstGT] at h
  | cons x rest ih =>
    rw [List.pairwise_cons] at hsort
    simp only [firstGT] at h
    intro q hq hqs
    by_cases hx : spot < x.1
    · rw [if_pos hx] at h
      obtain rfl : x = p := Option.some.inj h
      rcases List.mem_cons.mp hq with rfl | hq
      · exact le_refl _
      · exact hsort.1 q hq
    · rw [if_neg hx] at h
      rcases List.mem_cons.mp hq with rfl | hq
      · exact absurd hqs hx
      · exact ih hsort.2 h q hq hqs

theorem keys_injective {l : List (ℚ × ℚ)} (hnd : l.Pairwise fun p q => p.1 ≠ q.1)
    {p q : ℚ × ℚ} (hp : p ∈ l) (hq : q ∈ l) (hk : p.1 = q.1) : p = q := by
  induction l with
  | nil => simp at hp
  | cons x rest ih =>
    rw [List.pairwise_cons] at hnd
    rcases List.mem_cons.mp hp with hpx | hpr
    · rcases List.mem_cons.mp hq with hqx | hqr
      · rw [hpx, hqx]
      · subst hpx
        exact absurd hk (hnd.1 q hqr)
    · rcases List.mem_cons.mp hq with hqx | hqr
      · subst hqx
        exact absurd hk.symm (hnd.1 p hpr)
      · exact ih hnd.2 hpr hqr

theorem head_key_min {l : List (ℚ × ℚ)} (hsort : l.Pairwise keyLE) {h : ℚ × ℚ}
    (hh : l.head? = some h) : ∀ p ∈ l, h.1 ≤ p.1 := by
  cases l with
  | nil => simp at hh
  | cons x rest =>
    obtain rfl : x = h := Option.some.inj hh
    rw [List.pairwise_cons] at hsort
    intro p hp
    rcases List.mem_cons.mp hp with rfl | hp
    · exact le_refl _
    · exact hsort.1 p hp

theorem getLast_key_max {l : List (ℚ × ℚ)} (hsort : l.Pairwise keyLE) {g : ℚ × ℚ}
    (hg : l.getLast? = some g) : ∀ p ∈ l, p.1 ≤ g.1 := by
  induction l using List.reverseRecOn with
  | nil => simp at hg
  | append_singleton xs x _ =>
    rw [List.getLast?_concat] at hg
    obtain rfl : x = g := Option.some.inj hg
    intro p hp
    rcases List.mem_append.mp hp with hp | hp
    · exact (List.pairwise_append.mp hsort).2.2 p hp x (by simp)
    · obtain rfl : p = x := by simpa using hp
      exact le_refl _

theorem mem_of_head_opt {α : Type} {l : List α} {a : α} (h : l.head? = some a) : a ∈ l := by
  cases l with
  | nil => simp at h
  | cons x t =>
    obtain rfl : x = a := by simpa using h
    simp

theorem mem_of_getLast_opt {α : Type} {l : List α} {a : α} (h : l.getLast? = some a) :
    a ∈ l := by
  induction l using List.reverseRecOn with
  | nil => simp at h
  | append_singleton xs x _ =>
    rw [List.getLast?_concat] at h
    obtain rfl : x = a := Option.some.inj h
    simp

theorem head_opt_none {α : Type} {l : List α} (h : l.head? = none) : l = [] := by
  cases l with
  | nil => rfl
  | cons x t => simp at h

theorem getLast_opt_none {α : Type} {l : List α} (h : l.getLast? = none) : l = [] := by
  induction l using List.reverseRecOn with
  | nil => rfl
  | append_singleton xs x _ => rw [List.getLast?_concat] at h; exact Option.noConfusion h

theorem interpolate_iv_eq (spot : ℚ) (tbl : List (ℚ × ℚ)) (h : tbl ≠ []) :
    interpolate_iv spot tbl =
      match lastLE spot (tbl.insertionSort keyLE), firstGT spot (tbl.insertionSort keyLE) with
      | none, _ => ((tbl.insertionSort keyLE).head?).map Prod.snd
      | some _, none => ((tbl.insertionSort keyLE).getLast?).map Prod.snd
      | some lp, some up =>
        if lp.1 = up.1 then some lp.2
        else some (lp.2 + (spot - lp.1) / (up.1 - lp.1) * (up.2 - lp.2)) := by
  rw [interpolate_iv, if_neg (by simpa [List.isEmpty_iff] using h)]

theorem insertionSort_ne_nil {tbl : List (ℚ × ℚ)} (h : tbl ≠ []) :
    tbl.insertionSort keyLE ≠ [] := by
  intro h0
  apply h
  have hperm := List.perm_insertionSort keyLE tbl
  rw [h0] at hperm
  exact hperm.symm.eq_nil

/-- C3: for every spot price and non-empty table, `interpolate_iv`
returns a value within `[min IVs, max IVs]` (stated as: some table IV
is ≤ the result and some table IV is ≥ it); at an exact strike match it
returns that strike's IV; below (above) every strike it returns the
smallest (largest) strike's IV; with a bracket it returns the linear
interpolation; spot 152.30 with {150: 0.20, 155: 0.24} gives 0.2184. -/
theorem C3_interpolate_iv :
    (∀ (spot : ℚ) (tbl : List (ℚ × ℚ)), tbl ≠ [] →
      ∃ r, interpolate_iv spot tbl = some r ∧
        (∃ p ∈ tbl, p.2 ≤ r) ∧ (∃ q ∈ tbl, r ≤ q.2)) ∧
    (∀ (spot : ℚ) (tbl : List (ℚ × ℚ)), (tbl.Pairwise fun p q => p.1 ≠ q.1) →
      ∀ p ∈ tbl, p.1 = spot → interpolate_iv spot tbl = some p.2) ∧
    (∀ (spot : ℚ) (tbl : List (ℚ × ℚ)) (p : ℚ × ℚ), (tbl.Pairwise fun p q => p.1 ≠ q.1) →
      p ∈ tbl → (∀ q ∈ tbl, spot < q.1) → (∀ q ∈ tbl, p.1 ≤ q.1) →
      interpolate_iv spot tbl = some p.2) ∧
    (∀ (spot : ℚ) (tbl : List (ℚ × ℚ)) (p : ℚ × ℚ), (tbl.Pairwise fun p q => p.1 ≠ q.1) →
      p ∈ tbl → (∀ q ∈ tbl, q.1 < spot) → (∀ q ∈ tbl, q.1 ≤ p.1) →
      interpolate_iv spot tbl = some p.2) ∧
    (∀ (spot : ℚ) (tbl : List (ℚ × ℚ)) (lo hi : ℚ × ℚ),
      (tbl.Pairwise fun p q => p.1 ≠ q.1) →
      lo ∈ tbl → hi ∈ tbl → lo.1 ≤ spot → spot < hi.1 →
      (∀ q ∈ tbl, q.1 ≤ spot → q.1 ≤ lo.1) → (∀ q ∈ tbl, spot < q.1 → hi.1 ≤ q.1) →
      interpolate_iv spot tbl =
        some (lo.2 + (spot - lo.1) / (hi.1 - lo.1) * (hi.2 - lo.2))) ∧
    interpolate_iv (152.3 : ℚ) [((150 : ℚ), (0.2 : ℚ)), (155, 0.24)] = some 0.2184 := by
  refine ⟨?_, ?_, ?_, ?_, ?_, ?_⟩
  · -- bounds
    intro spot tbl hne
    have hperm := List.perm_insertionSort keyLE tbl
    rw [interpolate_iv_eq spot tbl hne]
    cases hlast : lastLE spot (tbl.insertionSort keyLE) with
    | none =>
      cases hh : (tbl.insertionSort keyLE).head? with
      | none => exact absurd (head_opt_none hh) (insertionSort_ne_nil hne)
      | some h0 =>
        have h0t : h0 ∈ tbl := hperm.mem_iff.mp (mem_of_head_opt hh)
        exact ⟨h0.2, rfl, ⟨h0, h0t, le_refl _⟩, ⟨h0, h0t, le_refl _⟩⟩
    | some lp =>
      have hlpt : lp ∈ tbl := hperm.mem_iff.mp (lastLE_eq_some hlast).1
      have hlps : lp.1 ≤ spot := (lastLE_eq_some hlast).2
      cases hfirst : firstGT spot (tbl.insertionSort keyLE) with
      | none =>
        cases hg : (tbl.insertionSort keyLE).getLast? with
        | none => exact absurd (getLast_opt_none hg) (insertionSort_ne_nil hne)
        | some g =>
          have hgt : g ∈ tbl := hperm.mem_iff.mp (mem_of_getLast_opt hg)
          exact ⟨g.2, rfl, ⟨g, hgt, le_refl _⟩, ⟨g, hgt, le_refl _⟩⟩
      | some up =>
        have hupt : up ∈ tbl := hperm.mem_iff.mp (firstGT_eq_some hfirst).1
        have hups : spot < up.1 := (firstGT_eq_some hfirst).2
        by_cases heq : lp.1 = up.1
        · exact ⟨lp.2, by simp [heq], ⟨lp, hlpt, le_refl _⟩, ⟨lp, hlpt, le_refl _⟩⟩
        · have hd : 0 < up.1 - lp.1 := by linarith
          have hw0 : 0 ≤ (spot - lp.1) / (up.1 - lp.1) :=
            div_nonneg (by linarith) (le_of_lt hd)
          have hw1 : (spot - lp.1) / (up.1 - lp.1) < 1 := (div_lt_one hd).mpr (by linarith)
          refine ⟨lp.2 + (spot - lp.1) / (up.1 - lp.1) * (up.2 - lp.2),
            by simp [heq], ?_, ?_⟩
          · rcases le_total lp.2 up.2 with hcase | hcase
            · exact ⟨lp, hlpt, by nlinarith⟩
            · exact ⟨up, hupt, by nlinarith⟩
          · rcases le_total lp.2 up.2 with hcase | hcase
            · exact ⟨up, hupt, by nlinarith⟩
            · exact ⟨lp, hlpt, by nlinarith⟩
  · -- exact strike match
    intro spot tbl hnd p hp hps
    have hne : tbl ≠ [] := by intro h0; rw [h0] at hp; simp at hp
    have hst : (tbl.insertionSort keyLE).Pairwise keyLE := List.sorted_insertionSort keyLE tbl
    have hperm := List.perm_insertionSort keyLE tbl
    have hndst : (tbl.insertionSort keyLE).Pairwise fun p q => p.1 ≠ q.1 :=
      (hperm.pairwise_iff fun h e => h e.symm).mpr hnd
    have hpst : p ∈ tbl.insertionSort keyLE := hperm.mem_iff.mpr hp
    have hlast : lastLE spot (tbl.insertionSort keyLE) = some p := by
      cases hl : lastLE spot (tbl.insertionSort keyLE) with
      | none => exact absurd (lastLE_eq_none.mp hl p hpst) (by rw [hps]; exact lt_irrefl _)
      | some lp =>
        have h1 := lastLE_eq_some hl
        have h2 : p.1 ≤ lp.1 := lastLE_max hst hl p hpst (le_of_eq hps)
        have h3 : lp.1 = p.1 := le_antisymm (hps ▸ h1.2) h2
        rw [keys_injective hndst h1.1 hpst h3]
    rw [interpolate_iv_eq spot tbl hne, hlast]
    cases hfirst : firstGT spot (tbl.insertionSort keyLE) with
    | none =>
      cases hg : (tbl.insertionSort keyLE).getLast? with
      | none => exact absurd (getLast_opt_none hg) (insertionSort_ne_nil hne)
      | some g =>
        have hgmem := mem_of_getLast_opt hg
        have hgk : g.1 = p.1 :=
          le_antisymm (hps ▸ firstGT_eq_none.mp hfirst g hgmem) (getLast_key_max hst hg p hpst)
        rw [keys_injective hndst hgmem hpst hgk]
        rfl
    | some up =>
      have hups : spot < up.1 := (firstGT_eq_some hfirst).2
      have hne2 : ¬(p.1 = up.1) := by rw [hps]; exact ne_of_lt hups
      show (if p.1 = up.1 then some p.2
        else some (p.2 + (spot - p.1) / (up.1 - p.1) * (up.2 - p.2))) = some p.2
      rw [if_neg hne2, ← hps]
      simp
  · -- spot below every strike
    intro spot tbl p hnd hp hbelow hmin
    have hne : tbl ≠ [] := by intro h0; rw [h0] at hp; simp at hp
    have hst : (tbl.insertionSort keyLE).Pairwise keyLE := List.sorted_insertionSort keyLE tbl
    have hperm := List.perm_insertionSort keyLE tbl
    have hndst : (tbl.insertionSort keyLE).Pairwise fun p q => p.1 ≠ q.1 :=
      (hperm.pairwise_iff fun h e => h e.symm).mpr hnd
    have hpst : p ∈ tbl.insertionSort keyLE := hperm.mem_iff.mpr hp
    have hlast : lastLE spot (tbl.insertionSort keyLE) = none :=
      lastLE_eq_none.mpr fun q hq => hbelow q (hperm.mem_iff.mp hq)
    rw [interpolate_iv_eq spot tbl hne, hlast]
    cases hh : (tbl.insertionSort keyLE).head? with
    | none => exact absurd (head_opt_none hh) (insertionSort_ne_nil hne)
    | some h0 =>
      have h0mem := mem_of_head_opt hh
      have hk : h0.1 = p.1 :=
        le_antisymm (head_key_min hst hh p hpst) (hmin h0 (hperm.mem_iff.mp h0mem))
      rw [keys_injective hndst h0mem hpst hk]
      rfl
  · -- spot above every strike
    intro spot tbl p hnd hp habove hmax
    have hne : tbl ≠ [] := by intro h0; rw [h0] at hp; simp at hp
    have hst : (tbl.insertionSort keyLE).Pairwise keyLE := List.sorted_insertionSort keyLE tbl
    have hperm := List.perm_insertionSort keyLE tbl
    have hndst : (tbl.insertionSort keyLE).Pairwise fun p q => p.1 ≠ q.1 :=
      (hperm.pairwise_iff fun h e => h e.symm).mpr hnd
    have hpst : p ∈ tbl.insertionSort keyLE := hperm.mem_iff.mpr hp
    have hfirst : firstGT spot (tbl.insertionSort keyLE) = none :=
      firstGT_eq_none.mpr fun q hq => le_of_lt (habove q (hperm.mem_iff.mp hq))
    cases hl : lastLE spot (tbl.insertionSort keyLE) with
    | none => exact absurd (lastLE_eq_none.mp hl p hpst) (not_lt_of_lt (habove p hp))
    | some lp =>
      rw [interpolate_iv_eq spot tbl hne, hl, hfirst]
      cases hg : (tbl.insertionSort keyLE).getLast? with
      | none => exact absurd (getLast_opt_none hg) (insertionSort_ne_nil hne)
      | some g =>
        have hgmem := mem_of_getLast_opt hg
        have hk : g.1 = p.1 :=
          le_antisymm (hmax g (hperm.mem_iff.mp hgmem)) (getLast_key_max hst hg p hpst)
        rw [keys_injective hndst hgmem hpst hk]
        rfl
  · -- bracketing pair: linear interpolation
    intro spot tbl lo hi hnd hlo hhi hlos hhis hlomax hhimin
    have hne : tbl ≠ [] := by intro h0; rw [h0] at hlo; simp at hlo
    have hst : (tbl.insertionSort keyLE).Pairwise keyLE := List.sorted_insertionSort keyLE tbl
    have hperm := List.perm_insertionSort keyLE tbl
    have hndst : (tbl.insertionSort keyLE).Pairwise fun p q => p.1 ≠ q.1 :=
      (hperm.pairwise_iff fun h e => h e.symm).mpr hnd
    have hlost : lo ∈ tbl.insertionSort keyLE := hperm.mem_iff.mpr hlo
    have hhist : hi ∈ tbl.insertionSort keyLE := hperm.mem_iff.mpr hhi
    have hlast : lastLE spot (tbl.insertionSort keyLE) = some lo := by
      cases hl : lastLE spot (tbl.insertionSort keyLE) with
      | none => exact absurd (lastLE_eq_none.mp hl lo hlost) (not_lt_of_le hlos)
      | some lp =>
        have h1 := lastLE_eq_some hl
        have h2 : lo.1 ≤ lp.1 := lastLE_max hst hl lo hlost hlos
        have h3 : lp.1 ≤ lo.1 := hlomax lp (hperm.mem_iff.mp h1.1) h1.2
        rw [keys_injective hndst h1.1 hlost (le_antisymm h3 h2)]
    have hfirst : firstGT spot (tbl.insertionSort keyLE) = some hi := by
      cases hf : firstGT spot (tbl.insertionSort keyLE) with
      | none => exact absurd (firstGT_eq_none.mp hf hi hhist) (not_le_of_lt hhis)
      | some up =>
        have h1 := firstGT_eq_some hf
        have h2 : hi.1 ≤ up.1 := hhimin up (hperm.mem_iff.mp h1.1) h1.2
        have h3 : up.1 ≤ hi.1 := firstGT_min hst hf hi hhist hhis
        rw [keys_injective hndst h1.1 hhist (le_antisymm h3 h2)]
    rw [interpolate_iv_eq spot tbl hne, hlast, hfirst]
    show (if lo.1 = hi.1 then some lo.2
      else some (lo.2 + (spot - lo.1) / (hi.1 - lo.1) * (hi.2 - lo.2))) =
      some (lo.2 + (spot - lo.1) / (hi.1 - lo.1) * (hi.2 - lo.2))
    rw [if_neg (ne_of_lt (lt_of_le_of_lt hlos hhis))]
  · -- scenario
    have hsort : (([((150 : ℚ), (0.2 : ℚ)), (155, 0.24)]).insertionSort keyLE) =
        [((150 : ℚ), (0.2 : ℚ)), (155, 0.24)] := by
      norm_num [List.insertionSort, List.orderedInsert, keyLE]
    have hlast : lastLE (152.3 : ℚ) [((150 : ℚ), (0.2 : ℚ)), (155, 0.24)] =
        some ((150 : ℚ), (0.2 : ℚ)) := by
      norm_num [lastLE]
    have hfirst : firstGT (152.3 : ℚ) [((150 : ℚ), (0.2 : ℚ)), (155, 0.24)] =
        some ((155 : ℚ), (0.24 : ℚ)) := by
      norm_num [firstGT]
    rw [interpolate_iv_eq _ _ (by simp), hsort, hlast, hfirst]
    show (if ((150 : ℚ), (0.2 : ℚ)).1 = ((155 : ℚ), (0.24 : ℚ)).1
        then some ((150 : ℚ), (0.2 : ℚ)).2
        else some (((150 : ℚ), (0.2 : ℚ)).2 +
          ((152.3 : ℚ) - ((150 : ℚ), (0.2 : ℚ)).1) /
            (((155 : ℚ), (0.24 : ℚ)).1 - ((150 : ℚ), (0.2 : ℚ)).1) *
          (((155 : ℚ), (0.24 : ℚ)).2 - ((150 : ℚ), (0.2 : ℚ)).2))) = some (0.2184 : ℚ)
    rw [if_neg (by norm_num)]
    congr 1
    norm_num

theorem C3_interpolate_iv_witness :
    (∃ r, interpolate_iv (152.3 : ℚ) [((150 : ℚ), (0.2 : ℚ)), (155, 0.24)] = some r ∧
      (∃ p ∈ [((150 : ℚ), (0.2 : ℚ)), (155, 0.24)], p.2 ≤ r) ∧
      (∃ q ∈ [((150 : ℚ), (0.2 : ℚ)), (155, 0.24)], r ≤ q.2)) ∧
    interpolate_iv (150 : ℚ) [((150 : ℚ), (0.2 : ℚ)), (155, 0.24)] =
      some ((150 : ℚ), (0.2 : ℚ)).2 ∧
    interpolate_iv (100 : ℚ) [((150 : ℚ), (0.2 : ℚ)), (155, 0.24)] =
      some ((150 : ℚ), (0.2 : ℚ)).2 ∧
    interpolate_iv (200 : ℚ) [((150 : ℚ), (0.2 : ℚ)), (155, 0.24)] =
      some ((155 : ℚ), (0.24 : ℚ)).2 ∧
    interpolate_iv (152.3 : ℚ) [((150 : ℚ), (0.2 : ℚ)), (155, 0.24)] =
      some (((150 : ℚ), (0.2 : ℚ)).2 +
        ((152.3 : ℚ) - ((150 : ℚ), (0.2 : ℚ)).1) /
          (((155 : ℚ), (0.24 : ℚ)).1 - ((150 : ℚ), (0.2 : ℚ)).1) *
        (((155 : ℚ), (0.24 : ℚ)).2 - ((150 : ℚ), (0.2 : ℚ)).2)) := by
  refine ⟨C3_interpolate_iv.1 (152.3 : ℚ) _ (by simp), ?_, ?_, ?_, ?_⟩
  · exact C3_interpolate_iv.2.1 (150 : ℚ) _ (by norm_num) ((150 : ℚ), (0.2 : ℚ))
      (by norm_num) rfl
  · exact C3_interpolate_iv.2.2.1 (100 : ℚ) _ ((150 : ℚ), (0.2 : ℚ)) (by norm_num)
      (by norm_num) (by norm_num) (by norm_num)
  · exact C3_interpolate_iv.2.2.2.1 (200 : ℚ) _ ((155 : ℚ), (0.24 : ℚ)) (by norm_num)
      (by norm_num) (by norm_num) (by norm_num)
  · exact C3_interpolate_iv.2.2.2.2.1 (152.3 : ℚ) _ ((150 : ℚ), (0.2 : ℚ))
      ((155 : ℚ), (0.24 : ℚ)) (by norm_num) (by norm_num) (by norm_num) (by norm_num)
      (by norm_num) (by norm_num) (by norm_num)

/-! ### Strike selection

`find_closest_strikes` (src/utils.py:11-49): sort the available
strikes, split them at the spot price, keep the nearest strike at or
below and the nearest strike above, then — only when fewer than
`num_strikes` were collected — widen by the second-nearest strike on
each side (`closest.insert(0, lower_strikes[-2])`,
`closest.append(upper_strikes[1])`); return the result sorted.  The
three accumulator states of the Python `closest` list are named
`closest0/1/2`. -/

def closest0 (L U : List ℚ) : List ℚ :=
  L.getLast?.toList ++ U.head?.toList

def closest1 (L U : List ℚ) (num : Nat) : List ℚ :=
  if (closest0 L U).length < num ∧ 1 < L.length
  then (L.get? (L.length - 2)).toList ++ closest0 L U
  else closest0 L U

def closest2 (L U : List ℚ) (num : Nat) : List ℚ :=
  if (closest0 L U).length < num ∧ 1 < U.length ∧ (closest1 L U num).length < num
  then closest1 L U num ++ (U.get? 1).toList
  else closest1 L U num

def find_closest_strikes (spot : ℚ) (available : List ℚ) (num : Nat) : List ℚ :=
  if available.isEmpty then []
  else
    let sorted_strikes := available.insertionSort (· ≤ ·)
    let lower_strikes := sorted_strikes.filter fun s => decide (s ≤ spot)
    let upper_strikes := sorted_strikes.filter fun s => decide (spot < s)
    (closest2 lower_strikes upper_strikes num).insertionSort (· ≤ ·)

theorem sorted_getLast_max {l : List ℚ} (hsort : l.Pairwise (· ≤ ·)) {g : ℚ}
    (hg : l.getLast? = some g) : ∀ x ∈ l, x ≤ g := by
  induction l using List.reverseRecOn with
  | nil => simp at hg
  | append_singleton xs x _ =>
    rw [List.getLast?_concat] at hg
    obtain rfl : x = g := Option.some.inj hg
    intro y hy
    rcases List.mem_append.mp hy with hy | hy
    · exact (List.pairwise_append.mp hsort).2.2 y hy x (by simp)
    · obtain rfl : y = x := by simpa using hy
      exact le_refl _

theorem sorted_head_min {l : List ℚ} (hsort : l.Pairwise (· ≤ ·)) {h : ℚ}
    (hh : l.head? = some h) : ∀ x ∈ l, h ≤ x := by
  cases l with
  | nil => simp at hh
  | cons a t =>
    obtain rfl : a = h := by simpa using hh
    rw [List.pairwise_cons] at hsort
    intro x hx
    rcases List.mem_cons.mp hx with rfl | hx
    · exact le_refl _
    · exact hsort.1 x hx

theorem length_toList_le {α : Type} (o : Option α) : o.toList.length ≤ 1 := by
  cases o <;> simp

theorem mem_toList_eq {α : Type} {o : Option α} {a : α} (h : a ∈ o.toList) :
    o = some a := by
  cases o with
  | none => simp at h
  | some b =>
    simp only [Option.toList, List.mem_singleton] at h
    rw [h]

theorem mem_closest0 {L U : List ℚ} {y : ℚ} (h : y ∈ closest0 L U) :
    L.getLast? = some y ∨ U.head? = some y := by
  rcases List.mem_append.mp h with h | h
  · exact Or.inl (mem_toList_eq h)
  · exact Or.inr (mem_toList_eq h)

theorem mem_closest1 {L U : List ℚ} {num : Nat} {y : ℚ} (h : y ∈ closest1 L U num) :
    L.get? (L.length - 2) = some y ∨ y ∈ closest0 L U := by
  rw [closest1] at h
  split at h
  · rcases List.mem_append.mp h with h | h
    · exact Or.inl (mem_toList_eq h)
    · exact Or.inr h
  · exact Or.inr h

theorem mem_closest2 {L U : List ℚ} {num : Nat} {y : ℚ} (h : y ∈ closest2 L U num) :
    y ∈ closest1 L U num ∨ U.get? 1 = some y := by
  rw [closest2] at h
  split at h
  · rcases List.mem_append.mp h with h | h
    · exact Or.inl h
    · exact Or.inr (mem_toList_eq h)
  · exact Or.inl h

theorem closest0_sub_closest1 {L U : List ℚ} {num : Nat} {y : ℚ} (h : y ∈ closest0 L U) :
    y ∈ closest1 L U num := by
  rw [closest1]
  split
  · exact List.mem_append.mpr (Or.inr h)
  · exact h

theorem closest1_sub_closest2 {L U : List ℚ} {num : Nat} {y : ℚ}
    (h : y ∈ closest1 L U num) : y ∈ closest2 L U num := by
  rw [closest2]
  split
  · exact List.mem_append.mpr (Or.inl h)
  · exact h

theorem length_closest0_le (L U : List ℚ) : (closest0 L U).length ≤ 2 := by
  rw [closest0, List.length_append]
  have h1 := length_toList_le L.getLast?
  have h2 := length_toList_le U.head?
  omega

theorem length_closest2_le {L U : List ℚ} {num : Nat} (h : 2 ≤ num) :
    (closest2 L U num).length ≤ num := by
  have h0 := length_closest0_le L U
  have h1 : (closest1 L U num).length ≤ num := by
    rw [closest1]
    split
    · rename_i hcond
      rw [List.length_append]
      have := length_toList_le (L.get? (L.length - 2))
      omega
    · omega
  rw [closest2]
  split
  · rename_i hcond
    rw [List.length_append]
    have := length_toList_le (U.get? 1)
    omega
  · exact h1

theorem find_closest_strikes_subset (spot : ℚ) (available : List ℚ) (num : Nat) :
    ∀ y ∈ find_closest_strikes spot available num, y ∈ available := by
  intro y hy
  rw [find_closest_strikes] at hy
  split at hy
  · simp at hy
  · simp only at hy
    have hy2 := (List.perm_insertionSort (· ≤ ·) _).mem_iff.mp hy
    have hss : ∀ w, w ∈ available.insertionSort (· ≤ ·) → w ∈ available :=
      fun w hw => (List.perm_insertionSort (· ≤ ·) available).mem_iff.mp hw
    have hLs : ∀ w, w ∈ (available.insertionSort (· ≤ ·)).filter
        (fun s => decide (s ≤ spot)) → w ∈ available :=
      fun w hw => hss w (List.mem_filter.mp hw).1
    have hUs : ∀ w, w ∈ (available.insertionSort (· ≤ ·)).filter
        (fun s => decide (spot < s)) → w ∈ available :=
      fun w hw => hss w (List.mem_filter.mp hw).1
    rcases mem_closest2 hy2 with h | h
    · rcases mem_closest1 h with h | h
      · exact hLs y (List.get?_mem h)
      · rcases mem_closest0 h with h | h
        · exact hLs y (mem_of_getLast_opt h)
        · exact hUs y (mem_of_head_opt h)
    · exact hUs y (List.get?_mem h)

/-- C5 counterexample: with `num_strikes = 1` and a strike on each side
of spot, the code still returns both bracketing strikes — two elements,
more than the requested `n = 1`.  So "at most n" fails for n < 2. -/
theorem C5_counterexample :
    find_closest_strikes 100 [95, 105] 1 = [95, 105] ∧
    ¬((find_closest_strikes 100 [95, 105] 1).length ≤ 1) := by
  constructor
  · decide
  · decide

/-- C5 (amended): `find_closest_strikes` always returns a sorted subset
of the available strikes containing the nearest strike at-or-below spot
and the nearest strike above spot whenever each exists, extended (when
more are requested) only by the next nearest on each side — every
returned strike is the last or second-to-last of the sorted at-or-below
strikes or the first or second of the sorted above strikes; when spot
is below (above) every available strike only above-side (below-side)
strikes are returned; and the result has at most `n` elements provided
`n ≥ 2` (for `n < 2` the code can return both bracketing strikes, see
the counterexample); spot 152.30 with strikes {145,150,155,160} and
n = 2 gives [150, 155]. -/
theorem C5_find_closest_strikes :
    (∀ (spot : ℚ) (available : List ℚ) (num : Nat),
      List.Sorted (· ≤ ·) (find_closest_strikes spot available num)) ∧
    (∀ (spot : ℚ) (available : List ℚ) (num : Nat), 2 ≤ num →
      (find_closest_strikes spot available num).length ≤ num) ∧
    (∀ (spot : ℚ) (available : List ℚ) (num : Nat) (x : ℚ), x ∈ available → x ≤ spot →
      ∃ y ∈ find_closest_strikes spot available num, y ≤ spot ∧
        ∀ z ∈ available, z ≤ spot → z ≤ y) ∧
    (∀ (spot : ℚ) (available : List ℚ) (num : Nat) (x : ℚ), x ∈ available → spot < x →
      ∃ y ∈ find_closest_strikes spot available num, spot < y ∧
        ∀ z ∈ available, spot < z → y ≤ z) ∧
    (∀ (spot : ℚ) (available : List ℚ) (num : Nat),
      ∀ y ∈ find_closest_strikes spot available num, y ∈ available) ∧
    (∀ (spot : ℚ) (available : List ℚ) (num : Nat), (∀ x ∈ available, spot < x) →
      ∀ y ∈ find_closest_strikes spot available num, spot < y) ∧
    (∀ (spot : ℚ) (available : List ℚ) (num : Nat), (∀ x ∈ available, x < spot) →
      ∀ y ∈ find_closest_strikes spot available num, y < spot) ∧
    (∀ (spot : ℚ) (available : List ℚ) (num : Nat),
      ∀ y ∈ find_closest_strikes spot available num,
        ((available.insertionSort (· ≤ ·)).filter fun s =>
            decide (s ≤ spot)).getLast? = some y ∨
        ((available.insertionSort (· ≤ ·)).filter fun s =>
            decide (spot < s)).head? = some y ∨
        ((available.insertionSort (· ≤ ·)).filter fun s => decide (s ≤ spot)).get?
          (((available.insertionSort (· ≤ ·)).filter fun s =>
            decide (s ≤ spot)).length - 2) = some y ∨
        ((available.insertionSort (· ≤ ·)).filter fun s =>
            decide (spot < s)).get? 1 = some y) ∧
    find_closest_strikes (152.3 : ℚ) [145, 150, 155, 160] 2 = [150, 155] := by
  refine ⟨?_, ?_, ?_, ?_, find_closest_strikes_subset, ?_, ?_, ?_, ?_⟩
  · -- sorted
    intro spot available num
    rw [find_closest_strikes]
    split
    · exact List.sorted_nil
    · exact List.sorted_insertionSort _ _
  · -- at most num elements when 2 ≤ num
    intro spot available num hnum
    rw [find_closest_strikes]
    split
    · simp
    · simp only
      rw [(List.perm_insertionSort (· ≤ ·) _).length_eq]
      exact length_closest2_le hnum
  · -- contains the nearest strike at-or-below spot
    intro spot available num x hx hxs
    have hav : ¬(available.isEmpty = true) := by
      cases available with
      | nil => simp at hx
      | cons a t => simp
    rw [find_closest_strikes, if_neg hav]
    simp only
    have hsp : (available.insertionSort (· ≤ ·)).Pairwise (· ≤ ·) :=
      List.sorted_insertionSort _ _
    have hLp : ((available.insertionSort (· ≤ ·)).filter
        (fun s => decide (s ≤ spot))).Pairwise (· ≤ ·) :=
      hsp.sublist (List.filter_sublist _)
    have hxL : x ∈ (available.insertionSort (· ≤ ·)).filter (fun s => decide (s ≤ spot)) :=
      List.mem_filter.mpr ⟨(List.perm_insertionSort (· ≤ ·) available).mem_iff.mpr hx,
        decide_eq_true hxs⟩
    cases hg : ((available.insertionSort (· ≤ ·)).filter
        (fun s => decide (s ≤ spot))).getLast? with
    | none =>
      rw [getLast_opt_none hg] at hxL
      simp at hxL
    | some y0 =>
      have hy0L := mem_of_getLast_opt hg
      refine ⟨y0, ?_, ?_, ?_⟩
      · apply (List.perm_insertionSort (· ≤ ·) _).mem_iff.mpr
        exact closest1_sub_closest2 (closest0_sub_closest1
          (List.mem_append.mpr (Or.inl (by rw [hg]; simp))))
      · exact of_decide_eq_true (List.mem_filter.mp hy0L).2
      · intro z hz hzs
        have hzL : z ∈ (available.insertionSort (· ≤ ·)).filter
            (fun s => decide (s ≤ spot)) :=
          List.mem_filter.mpr ⟨(List.perm_insertionSort (· ≤ ·) available).mem_iff.mpr hz,
            decide_eq_true hzs⟩
        exact sorted_getLast_max hLp hg z hzL
  · -- contains the nearest strike above spot
    intro spot available num x hx hxs
    have hav : ¬(available.isEmpty = true) := by
      cases available with
      | nil => simp at hx
      | cons a t => simp
    rw [find_closest_strikes, if_neg hav]
    simp only
    have hsp : (available.insertionSort (· ≤ ·)).Pairwise (· ≤ ·) :=
      List.sorted_insertionSort _ _
    have hUp : ((available.insertionSort (· ≤ ·)).filter
        (fun s => decide (spot < s))).Pairwise (· ≤ ·) :=
      hsp.sublist (List.filter_sublist _)
    have hxU : x ∈ (available.insertionSort (· ≤ ·)).filter (fun s => decide (spot < s)) :=
      List.mem_filter.mpr ⟨(List.perm_insertionSort (· ≤ ·) available).mem_iff.mpr hx,
        decide_eq_true hxs⟩
    cases hh : ((available.insertionSort (· ≤ ·)).filter
        (fun s => decide (spot < s))).head? with
    | none =>
      rw [head_opt_none hh] at hxU
      simp at hxU
    | some y0 =>
      have hy0U := mem_of_head_opt hh
      refine ⟨y0, ?_, ?_, ?_⟩
      · apply (List.perm_insertionSort (· ≤ ·) _).mem_iff.mpr
        exact closest1_sub_closest2 (closest0_sub_closest1
          (List.mem_append.mpr (Or.inr (by rw [hh]; simp))))
      · exact of_decide_eq_true (List.mem_filter.mp hy0U).2
      · intro z hz hzs
        have hzU : z ∈ (available.insertionSort (· ≤ ·)).filter
            (fun s => decide (spot < s)) :=
          List.mem_filter.mpr ⟨(List.perm_insertionSort (· ≤ ·) available).mem_iff.mpr hz,
            decide_eq_true hzs⟩
        exact sorted_head_min hUp hh z hzU
  · -- spot below every strike: only above-side strikes
    intro spot available num hall y hy
    exact hall y (find_closest_strikes_subset spot available num y hy)
  · -- spot above every strike: only below-side strikes
    intro spot available num hall y hy
    exact hall y (find_closest_strikes_subset spot available num y hy)
  · -- every returned strike is the nearest or next-nearest on its side
    intro spot available num y hy
    rw [find_closest_strikes] at hy
    split at hy
    · simp at hy
    · simp only at hy
      have hy2 := (List.perm_insertionSort (· ≤ ·) _).mem_iff.mp hy
      rcases mem_closest2 hy2 with h | h
      · rcases mem_closest1 h with h | h
        · exact Or.inr (Or.inr (Or.inl h))
        · rcases mem_closest0 h with h | h
          · exact Or.inl h
          · exact Or.inr (Or.inl h)
      · exact Or.inr (Or.inr (Or.inr h))
  · -- scenario
    have hsorted : ([(145 : ℚ), 150, 155, 160]).insertionSort (· ≤ ·) =
        [(145 : ℚ), 150, 155, 160] := by decide
    have hlow : ([(145 : ℚ), 150, 155, 160]).filter
        (fun s => decide (s ≤ (152.3 : ℚ))) = [(145 : ℚ), 150] := by
      norm_num [List.filter]
    have hup : ([(145 : ℚ), 150, 155, 160]).filter
        (fun s => decide ((152.3 : ℚ) < s)) = [(155 : ℚ), 160] := by
      norm_num [List.filter]
    rw [find_closest_strikes, if_neg (by simp)]
    simp only
    rw [hsorted, hlow, hup]
    decide

theorem C5_find_closest_strikes_witness :
    (find_closest_strikes 100 [95, 105] 2).length ≤ 2 ∧
    (∃ y ∈ find_closest_strikes 100 [(95 : ℚ), 105] 2, y ≤ 100 ∧
      ∀ z ∈ [(95 : ℚ), 105], z ≤ 100 → z ≤ y) ∧
    (∃ y ∈ find_closest_strikes 100 [(95 : ℚ), 105] 2, 100 < y ∧
      ∀ z ∈ [(95 : ℚ), 105], 100 < z → y ≤ z) ∧
    (∀ y ∈ find_closest_strikes 0 [(95 : ℚ), 105] 2, 0 < y) ∧
    (∀ y ∈ find_closest_strikes 200 [(95 : ℚ), 105] 2, y < 200) ∧
    (((([(90 : ℚ), 95, 105, 110]).insertionSort (· ≤ ·)).filter fun s =>
        decide (s ≤ (100 : ℚ))).getLast? = some 90 ∨
    ((([(90 : ℚ), 95, 105, 110]).insertionSort (· ≤ ·)).filter fun s =>
        decide ((100 : ℚ) < s)).head? = some 90 ∨
    ((([(90 : ℚ), 95, 105, 110]).insertionSort (· ≤ ·)).filter fun s =>
        decide (s ≤ (100 : ℚ))).get?
      (((([(90 : ℚ), 95, 105, 110]).insertionSort (· ≤ ·)).filter fun s =>
        decide (s ≤ (100 : ℚ))).length - 2) = some 90 ∨
    ((([(90 : ℚ), 95, 105, 110]).insertionSort (· ≤ ·)).filter fun s =>
        decide ((100 : ℚ) < s)).get? 1 = some 90) :=
  ⟨C5_find_closest_strikes.2.1 100 [95, 105] 2 (by decide),
   C5_find_closest_strikes.2.2.1 100 [95, 105] 2 95 (by decide) (by decide),
   C5_find_closest_strikes.2.2.2.1 100 [95, 105] 2 105 (by decide) (by decide),
   C5_find_closest_strikes.2.2.2.2.2.1 0 [95, 105] 2 (by decide),
   C5_find_closest_strikes.2.2.2.2.2.2.1 200 [95, 105] 2 (by decide),
   C5_find_closest_strikes.2.2.2.2.2.2.2.1 100 [90, 95, 105, 110] 4 90 (by decide)⟩

/-! ### Per-day strike requirements

`identify_required_strikes` / `identify_required_strikes_by_date`
(src/utils.py:52-151).  Timestamps are an abstract type `T`; the
`datetime.fromisoformat` + `strftime("%Y-%m-%d")` date extraction is an
abstract function `T → Option D` (`none` models the parse `except`
path).  Python's `set` accumulation followed by `sorted(list(...))` is
`dedup` followed by `insertionSort`. -/

structure Candle (T : Type) where
  start_time : Option T
  timestamp : Option T
  close : ℚ

/-- `candle.get("start_time") or candle.get("timestamp")`. -/
def candleTime {T : Type} (c : Candle T) : Option T :=
  c.start_time <|> c.timestamp

/-- The calendar-date key of a candle; `none` when the timestamp is
missing or unparseable (such candles are skipped by the grouping). -/
def candleDate {T D : Type} (f : T → Option D) (c : Candle T) : Option D :=
  match candleTime c with
  | none => none
  | some t => f t

/-- `identify_required_strikes`: union over all candles with positive
close of `find_closest_strikes(close, available, 3)`, sorted. -/
def identify_required_strikes {T : Type} (ohlc_data : List (Candle T))
    (available_strikes : List ℚ) : List ℚ :=
  (((ohlc_data.filter fun c => decide (0 < c.close)).flatMap
      fun c => find_closest_strikes c.close available_strikes 3).dedup).insertionSort (· ≤ ·)

/-- `identify_required_strikes_by_date`, read as a function from a date
key to that day's sorted strike list: the candles grouped under date
`d` run through the same per-candle selection.  A date with no candles
(no dict entry) maps to the empty list. -/
def identify_required_strikes_by_date {T D : Type} [DecidableEq D] (f : T → Option D)
    (ohlc_data : List (Candle T)) (available_strikes : List ℚ) (d : D) : List ℚ :=
  identify_required_strikes
    (ohlc_data.filter fun c => decide (candleDate f c = some d)) available_strikes

theorem mem_required_strikes {T : Type} (candles : List (Candle T)) (available : List ℚ)
    (y : ℚ) :
    y ∈ identify_required_strikes candles available ↔
      ∃ c, c ∈ candles ∧ 0 < c.close ∧ y ∈ find_closest_strikes c.close available 3 := by
  rw [identify_required_strikes, (List.perm_insertionSort (· ≤ ·) _).mem_iff,
    List.mem_dedup]
  simp only [List.mem_flatMap, List.mem_filter, decide_eq_true_eq]
  constructor
  · rintro ⟨c, ⟨hc, hcl⟩, hy⟩
    exact ⟨c, hc, hcl, hy⟩
  · rintro ⟨c, hc, hcl, hy⟩
    exact ⟨c, ⟨hc, hcl⟩, hy⟩

/-- C6: for every candle list and strike universe, the per-day strike
set of `identify_required_strikes_by_date` is never larger than the
full-range `identify_required_strikes` selection over all candles, and
every per-day strike (hence the union over all days) is among the
strikes selected by `find_closest_strikes` with n = 3 over the whole
range. -/
theorem C6_required_strikes_by_date :
    (∀ (T D : Type) (inst : DecidableEq D) (f : T → Option D)
      (candles : List (Candle T)) (available : List ℚ) (d : D),
      (identify_required_strikes_by_date f candles available d).length ≤
        (identify_required_strikes candles available).length) ∧
    (∀ (T D : Type) (inst : DecidableEq D) (f : T → Option D)
      (candles : List (Candle T)) (available : List ℚ) (d : D),
      ∀ y ∈ identify_required_strikes_by_date f candles available d,
        y ∈ identify_required_strikes candles available) := by
  have hsub : ∀ (T D : Type) (inst : DecidableEq D) (f : T → Option D)
      (candles : List (Candle T)) (available : List ℚ) (d : D),
      ∀ y ∈ identify_required_strikes_by_date f candles available d,
        y ∈ identify_required_strikes candles available := by
    intro T D inst f candles available d y hy
    rw [identify_required_strikes_by_date] at hy
    rw [mem_required_strikes] at hy
    obtain ⟨c, hc, hcl, hyc⟩ := hy
    rw [mem_required_strikes]
    exact ⟨c, (List.mem_filter.mp hc).1, hcl, hyc⟩
  refine ⟨?_, hsub⟩
  intro T D inst f candles available d
  rw [identify_required_strikes_by_date, identify_required_strikes,
    identify_required_strikes]
  rw [(List.perm_insertionSort (· ≤ ·) _).length_eq,
    (List.perm_insertionSort (· ≤ ·) _).length_eq]
  rw [← List.card_toFinset, ← List.card_toFinset]
  apply Finset.card_le_card
  intro a ha
  rw [List.mem_toFinset] at ha ⊢
  rw [List.mem_flatMap] at ha ⊢
  obtain ⟨c, hc, hac⟩ := ha
  refine ⟨c, ?_, hac⟩
  rw [List.mem_filter] at hc ⊢
  exact ⟨(List.mem_filter.mp hc.1).1, hc.2⟩

theorem C6_required_strikes_by_date_witness :
    (identify_required_strikes_by_date (fun t : Nat => some t)
        [⟨some 1, none, 100⟩, ⟨some 2, none, 200⟩] [(95 : ℚ), 105, 195, 205] 1).length ≤
      (identify_required_strikes
        [(⟨some 1, none, 100⟩ : Candle Nat), ⟨some 2, none, 200⟩]
        [(95 : ℚ), 105, 195, 205]).length ∧
    (95 : ℚ) ∈ identify_required_strikes
        [(⟨some 1, none, 100⟩ : Candle Nat), ⟨some 2, none, 200⟩]
        [(95 : ℚ), 105, 195, 205] :=
  ⟨C6_required_strikes_by_date.1 Nat Nat inferInstance (fun t => some t)
      [⟨some 1, none, 100⟩, ⟨some 2, none, 200⟩] [(95 : ℚ), 105, 195, 205] 1,
   C6_required_strikes_by_date.2 Nat Nat inferInstance (fun t => some t)
      [⟨some 1, none, 100⟩, ⟨some 2, none, 200⟩] [(95 : ℚ), 105, 195, 205] 1 95
      (by decide)⟩

/-! ### Rate-limited fetch client: retry with backoff

`_request_with_retry` (src/data_fetcher.py:48-106), modelled over the
sequence of HTTP status codes returned per attempt.  The result pair is
(the list of backoff delays slept, in order, the outcome).
`httpx.raise_for_status` raises exactly on non-2xx statuses; timing is
modelled as the recorded delay values. -/

def isSuccess (status : Nat) : Bool := 200 ≤ status && status < 300

inductive FetchResult where
  | success (attempt : Nat)
  | rateLimitExceeded (lastAttempt : Nat)
  | upstreamError (status : Nat) (attempt : Nat)
  | exhausted
deriving DecidableEq

/-- One pass of `for attempt in range(max_retries)`; `fuel` counts the
attempts left after the current one plus one (`max_retries - attempt`),
so Python's `attempt < max_retries - 1` guard is `0 < fuel` under the
`fuel + 1` pattern.  `exhausted` is the dead `raise` after the loop,
reachable only when `max_retries = 0`. -/
def retryGo (status : Nat → Nat) (base cap : ℚ) : Nat → Nat → List ℚ × FetchResult
  | _, 0 => ([], FetchResult.exhausted)
  | attempt, fuel + 1 =>
    let s := status attempt
    if isSuccess s then ([], FetchResult.success attempt)
    else if s = 429 then
      if 0 < fuel then
        let d := min (base * 2 ^ attempt) cap
        let r := retryGo status base cap (attempt + 1) fuel
        (d :: r.1, r.2)
      else ([], FetchResult.rateLimitExceeded attempt)
    else ([], FetchResult.upstreamError s attempt)

def request_with_retry (status : Nat → Nat) (maxRetries : Nat) (base cap : ℚ) :
    List ℚ × FetchResult :=
  retryGo status base cap 0 maxRetries

theorem retryGo_all429 (status : Nat → Nat) (base cap : ℚ) :
    ∀ (fuel attempt : Nat), 1 ≤ fuel →
      (∀ i, attempt ≤ i → i < attempt + fuel → status i = 429) →
      retryGo status base cap attempt fuel =
        ((List.range (fuel - 1)).map fun n => min (base * 2 ^ (attempt + n)) cap,
         FetchResult.rateLimitExceeded (attempt + fuel - 1)) := by
  intro fuel
  induction fuel with
  | zero => intro attempt h; omega
  | succ f ih =>
    intro attempt _ hall
    have hs : status attempt = 429 := hall attempt (le_refl _) (by omega)
    simp only [retryGo, hs]
    rw [if_pos trivial]
    by_cases hf : 0 < f
    · rw [if_neg (by decide : ¬(isSuccess 429 = true)), if_pos hf,
        ih (attempt + 1) hf fun i h1 h2 => hall i (by omega) (by omega)]
      simp only [Prod.mk.injEq]
      constructor
      · obtain ⟨g, rfl⟩ : ∃ g, f = g + 1 := ⟨f - 1, by omega⟩
        rw [show g + 1 + 1 - 1 = g + 1 from rfl, List.range_succ_eq_map]
        simp only [List.map_cons, List.map_map, List.cons.injEq]
        constructor
        · simp
        · rw [show g + 1 - 1 = g from rfl]
          apply List.map_congr_left
          intro a _
          show min (base * 2 ^ (attempt + 1 + a)) cap = min (base * 2 ^ (attempt + (a + 1))) cap
          rw [show attempt + 1 + a = attempt + (a + 1) from by omega]
      · rw [show attempt + 1 + f - 1 = attempt + (f + 1) - 1 from by omega]
    · have hf0 : f = 0 := by omega
      subst hf0
      rw [if_neg (by decide : ¬(isSuccess 429 = true)), if_neg hf]
      simp

theorem retryGo_upstream (status : Nat → Nat) (base cap : ℚ) (attempt fuel : Nat)
    (hfuel : 0 < fuel) (hns : isSuccess (status attempt) = false)
    (h429 : status attempt ≠ 429) :
    retryGo status base cap attempt fuel =
      ([], FetchResult.upstreamError (status attempt) attempt) := by
  obtain ⟨f, rfl⟩ : ∃ f, fuel = f + 1 := ⟨fuel - 1, by omega⟩
  simp only [retryGo, hns]
  rw [if_neg (by simp [hns]), if_neg h429]

/-- C4: through `_request_with_retry`, a run of 429 responses sleeps
`min(base * 2 ^ attempt, cap)` before each retry — so the Nth retry's
delay is `min(base * 2 ^ (N-1), cap)` — and after all `max_retries`
attempts are exhausted the call fails as rate-limited, surfacing the
last attempt; any other non-success status fails immediately as an
upstream error with no retry and no backoff sleep, whichever attempt it
occurs on. -/
theorem C4_request_with_retry :
    (∀ (status : Nat → Nat) (maxRetries : Nat) (base cap : ℚ), 1 ≤ maxRetries →
      (∀ i, i < maxRetries → status i = 429) →
      request_with_retry status maxRetries base cap =
        ((List.range (maxRetries - 1)).map fun n => min (base * 2 ^ n) cap,
         FetchResult.rateLimitExceeded (maxRetries - 1))) ∧
    (∀ (status : Nat → Nat) (maxRetries : Nat) (base cap : ℚ), 1 ≤ maxRetries →
      (∀ i, i < maxRetries → status i = 429) →
      ∀ n, n < maxRetries - 1 →
        (request_with_retry status maxRetries base cap).1[n]? =
          some (min (base * 2 ^ n) cap)) ∧
    (∀ (status : Nat → Nat) (maxRetries : Nat) (base cap : ℚ), 1 ≤ maxRetries →
      isSuccess (status 0) = false → status 0 ≠ 429 →
      request_with_retry status maxRetries base cap =
        ([], FetchResult.upstreamError (status 0) 0)) ∧
    (∀ (status : Nat → Nat) (base cap : ℚ) (attempt fuel : Nat), 0 < fuel →
      isSuccess (status attempt) = false → status attempt ≠ 429 →
      retryGo status base cap attempt fuel =
        ([], FetchResult.upstreamError (status attempt) attempt)) := by
  have hall : ∀ (status : Nat → Nat) (maxRetries : Nat) (base cap : ℚ), 1 ≤ maxRetries →
      (∀ i, i < maxRetries → status i = 429) →
      request_with_retry status maxRetries base cap =
        ((List.range (maxRetries - 1)).map fun n => min (base * 2 ^ n) cap,
         FetchResult.rateLimitExceeded (maxRetries - 1)) := by
    intro status maxRetries base cap h1 h429
    rw [request_with_retry,
      retryGo_all429 status base cap maxRetries 0 h1 fun i hi1 hi2 => h429 i (by omega)]
    simp only [Prod.mk.injEq, Nat.zero_add]
  refine ⟨hall, ?_, ?_, retryGo_upstream⟩
  · intro status maxRetries base cap h1 h429 n hn
    rw [hall status maxRetries base cap h1 h429]
    rw [List.getElem?_map, List.getElem?_range (by omega : n < maxRetries - 1)]
    rfl
  · intro status maxRetries base cap h1 hns h429
    rw [request_with_retry]
    exact retryGo_upstream status base cap 0 maxRetries (by omega) hns h429

theorem C4_request_with_retry_witness :
    request_with_retry (fun _ => 429) 3 1 30 =
      ((List.range 2).map fun n => min ((1 : ℚ) * 2 ^ n) 30,
       FetchResult.rateLimitExceeded 2) ∧
    (request_with_retry (fun _ => 429) 3 1 30).1[1]? =
      some (min ((1 : ℚ) * 2 ^ 1) 30) ∧
    request_with_retry (fun _ => 500) 3 1 30 = ([], FetchResult.upstreamError 500 0) ∧
    retryGo (fun _ => 404) 1 30 2 1 = ([], FetchResult.upstreamError 404 2) :=
  ⟨C4_request_with_retry.1 (fun _ => 429) 3 1 30 (by omega) (fun i _ => rfl),
   C4_request_with_retry.2.1 (fun _ => 429) 3 1 30 (by omega) (fun i _ => rfl) 1 (by omega),
   C4_request_with_retry.2.2.1 (fun _ => 500) 3 1 30 (by omega) (by decide) (by decide),
   C4_request_with_retry.2.2.2 (fun _ => 404) 1 30 2 1 (by omega) (by decide) (by decide)⟩

/-! ### Intraday timestamp alignment

`align_data_by_timestamp` (src/utils.py:205-275).  Timestamps are an
abstract type `TS` with decidable equality; the `start_time or
timestamp` and `iv or iv_high or iv_low` fallback chains become
`Option.orElse` chains; float parsing is absorbed into optional ℚ
fields (`none` = missing or unparseable); the `market_time`
pass-through field is omitted. -/

structure IVPoint (TS : Type) where
  start_time : Option TS
  timestamp : Option TS
  iv : Option ℚ
  iv_high : Option ℚ
  iv_low : Option ℚ
deriving DecidableEq

def ivTime {TS : Type} (p : IVPoint TS) : Option TS :=
  p.start_time <|> p.timestamp

def ivValue {TS : Type} (p : IVPoint TS) : Option ℚ :=
  p.iv <|> p.iv_high <|> p.iv_low

structure PriceCandle (TS : Type) where
  start_time : Option TS
  timestamp : Option TS
  open_price : ℚ
  high_price : ℚ
  low_price : ℚ
  close : Option ℚ
  volume : ℤ
deriving DecidableEq

def priceTime {TS : Type} (c : PriceCandle TS) : Option TS :=
  c.start_time <|> c.timestamp

structure AlignedPoint (TS : Type) where
  timestamp : TS
  open_price : ℚ
  high_price : ℚ
  low_price : ℚ
  close : ℚ
  volume : ℤ
  iv : Option ℚ
deriving DecidableEq

/-- The per-strike entry of `iv_lookup[timestamp]`: the last point of
the series carrying this exact timestamp and a usable IV wins (later
points overwrite earlier dict writes). -/
def lastIVAt {TS : Type} [DecidableEq TS] (ts : TS) : List (IVPoint TS) → Option ℚ
  | [] => none
  | p :: rest =>
    match lastIVAt ts rest with
    | some v => some v
    | none => if ivTime p = some ts then ivValue p else none

/-- `iv_lookup.get(timestamp, {})` as a strike → IV association list in
the strike order of `iv_data_by_strike`. -/
def ivLookupAt {TS : Type} [DecidableEq TS] (ivByStrike : List (ℚ × List (IVPoint TS)))
    (ts : TS) : List (ℚ × ℚ) :=
  ivByStrike.filterMap fun e => (lastIVAt ts e.2).map fun v => (e.1, v)

/-- `align_data_by_timestamp`: for every candle with a timestamp and a
close, look up the strike → IV map at that exact timestamp and emit the
candle with the interpolated IV, `none` when the lookup is empty;
candles without timestamp or close are skipped. -/
def align_data_by_timestamp {TS : Type} [DecidableEq TS]
    (ohlc_data : List (PriceCandle TS))
    (iv_data_by_strike : List (ℚ × List (IVPoint TS))) : List (AlignedPoint TS) :=
  ohlc_data.filterMap fun c =>
    match priceTime c, c.close with
    | some ts, some cl =>
      some { timestamp := ts, open_price := c.open_price, high_price := c.high_price,
             low_price := c.low_price, close := cl, volume := c.volume,
             iv := if (ivLookupAt iv_data_by_strike ts).isEmpty then none
                   else interpolate_iv cl (ivLookupAt iv_data_by_strike ts) }
    | _, _ => none

theorem lastIVAt_some {TS : Type} [DecidableEq TS] {ts : TS} {series : List (IVPoint TS)}
    {v : ℚ} (h : lastIVAt ts series = some v) : ∃ p ∈ series, ivTime p = some ts := by
  revert v
  induction series with
  | nil => intro v h; simp [lastIVAt] at h
  | cons p rest ih =>
    intro v h
    simp only [lastIVAt] at h
    cases hr : lastIVAt ts rest with
    | some w =>
      obtain ⟨q, hq, hqt⟩ := ih hr
      exact ⟨q, by simp [hq], hqt⟩
    | none =>
      rw [hr] at h
      by_cases hp : ivTime p = some ts
      · exact ⟨p, by simp, hp⟩
      · rw [if_neg hp] at h
        exact Option.noConfusion h

theorem lastIVAt_none {TS : Type} [DecidableEq TS] {ts : TS} {series : List (IVPoint TS)}
    (h : ∀ p ∈ series, ivTime p ≠ some ts) : lastIVAt ts series = none := by
  induction series with
  | nil => rfl
  | cons p rest ih =>
    simp only [lastIVAt]
    rw [ih fun q hq => h q (by simp [hq]), if_neg (h p (by simp))]

/-- C7: in intraday alignment, an emitted point's IV is non-null only
if some strike's series has an observation whose (fallback) timestamp
equals the candle's timestamp exactly; and a candle carrying a
timestamp and close that matches no observation timestamp is still
emitted, with null IV. -/
theorem C7_align_data_by_timestamp :
    (∀ (TS : Type) (inst : DecidableEq TS) (data : List (PriceCandle TS))
      (ivb : List (ℚ × List (IVPoint TS))),
      ∀ pt ∈ align_data_by_timestamp data ivb, pt.iv ≠ none →
        ∃ e ∈ ivb, ∃ p ∈ e.2, ivTime p = some pt.timestamp) ∧
    (∀ (TS : Type) (inst : DecidableEq TS) (data : List (PriceCandle TS))
      (ivb : List (ℚ × List (IVPoint TS))),
      ∀ c ∈ data, ∀ (ts : TS) (cl : ℚ), priceTime c = some ts → c.close = some cl →
        (∀ e ∈ ivb, ∀ p ∈ e.2, ivTime p ≠ some ts) →
        ∃ pt ∈ align_data_by_timestamp data ivb, pt.timestamp = ts ∧ pt.iv = none) := by
  constructor
  · intro TS inst data ivb pt hpt hiv
    obtain ⟨c, hc, hfc⟩ := List.mem_filterMap.mp hpt
    cases hts : priceTime c with
    | none => rw [hts] at hfc; exact Option.noConfusion hfc
    | some ts =>
      cases hcl : c.close with
      | none => rw [hts, hcl] at hfc; exact Option.noConfusion hfc
      | some cl =>
        rw [hts, hcl] at hfc
        obtain rfl := Option.some.inj hfc
        simp only at hiv ⊢
        by_cases hemp : (ivLookupAt ivb ts).isEmpty
        · rw [if_pos hemp] at hiv
          exact absurd rfl hiv
        · have hne : ivLookupAt ivb ts ≠ [] := by
            intro h0
            rw [h0] at hemp
            exact hemp rfl
          obtain ⟨pr, hpr⟩ := List.exists_mem_of_ne_nil _ hne
          obtain ⟨e, he, hfe⟩ := List.mem_filterMap.mp hpr
          cases hl : lastIVAt ts e.2 with
          | none => rw [hl] at hfe; exact Option.noConfusion hfe
          | some v =>
            obtain ⟨p, hp, hptime⟩ := lastIVAt_some hl
            exact ⟨e, he, p, hp, hptime⟩
  · intro TS inst data ivb c hc ts cl hts hcl hnone
    have hlookup : ivLookupAt ivb ts = [] := by
      rw [ivLookupAt, List.filterMap_eq_nil_iff]
      intro e he
      rw [lastIVAt_none fun p hp => hnone e he p hp]
      rfl
    refine ⟨{ timestamp := ts, open_price := c.open_price, high_price := c.high_price,
              low_price := c.low_price, close := cl, volume := c.volume, iv := none },
      ?_, rfl, rfl⟩
    apply List.mem_filterMap.mpr
    refine ⟨c, hc, ?_⟩
    rw [hts, hcl]
    simp [hlookup]

theorem C7_align_data_by_timestamp_witness :
    (∃ e ∈ [((95 : ℚ), [(⟨some 5, none, some 2, none, none⟩ : IVPoint Nat)])],
      ∃ p ∈ e.2, ivTime p = some
        (AlignedPoint.timestamp (⟨5, 1, 1, 1, 100, 0, some 2⟩ : AlignedPoint Nat))) ∧
    (∃ pt ∈ align_data_by_timestamp
        [(⟨some 5, none, 1, 1, 1, some 100, 0⟩ : PriceCandle Nat)]
        [((95 : ℚ), [(⟨some 7, none, some 2, none, none⟩ : IVPoint Nat)])],
      pt.timestamp = 5 ∧ pt.iv = none) :=
  ⟨C7_align_data_by_timestamp.1 Nat inferInstance
      [⟨some 5, none, 1, 1, 1, some 100, 0⟩]
      [((95 : ℚ), [⟨some 5, none, some 2, none, none⟩])]
      ⟨5, 1, 1, 1, 100, 0, some 2⟩ (by decide) (by decide),
   C7_align_data_by_timestamp.2 Nat inferInstance
      [⟨some 5, none, 1, 1, 1, some 100, 0⟩]
      [((95 : ℚ), [⟨some 7, none, some 2, none, none⟩])]
      ⟨some 5, none, 1, 1, 1, some 100, 0⟩ (by decide) 5 100 (by decide) (by decide)
      (by decide)⟩

/-! ### Smart strike generation

`generate_smart_strikes` (src/utils.py:418-462).  Python `round` is
banker's rounding (half to even).  The `while` loop is modelled with a
fuel argument chosen large enough for every input; a `none` result
marks fuel exhaustion with the loop guard still true, i.e. it would
still be running. -/

/-- Python `round` on an exact rational: round half to even. -/
def pyRound (x : ℚ) : ℤ :=
  if x - ⌊x⌋ < 1 / 2 then ⌊x⌋
  else if 1 / 2 < x - ⌊x⌋ then ⌊x⌋ + 1
  else if ⌊x⌋ % 2 = 0 then ⌊x⌋ else ⌊x⌋ + 1

/-- Ordering by distance from the spot price, the sort key of the final
`strikes.sort(key=lambda s: abs(s - spot_price))`. -/
def distLE (spot a b : ℚ) : Prop := |a - spot| ≤ |b - spot|

instance (spot : ℚ) : DecidableRel (distLE spot) :=
  fun a b => inferInstanceAs (Decidable (_ ≤ _))

instance (spot : ℚ) : IsTotal ℚ (distLE spot) := ⟨fun _ _ => le_total _ _⟩

instance (spot : ℚ) : IsTrans ℚ (distLE spot) := ⟨fun _ _ _ => le_trans⟩

/-- The expansion loop: while fewer than `maxS` strikes are collected,
append `atm + offset·interval` when positive, then (if still short)
`atm - offset·interval` when positive, and move to the next offset. -/
def smartLoop (atm interval : ℚ) (maxS : Nat) : Nat → Nat → List ℚ → Option (List ℚ)
  | _, 0, strikes => if strikes.length < maxS then none else some strikes
  | offset, fuel + 1, strikes =>
    if strikes.length < maxS then
      let upper := atm + (offset : ℚ) * interval
      let s1 := if 0 < upper then strikes ++ [upper] else strikes
      let lower := atm - (offset : ℚ) * interval
      let s2 := if s1.length < maxS ∧ 0 < lower then s1 ++ [lower] else s1
      smartLoop atm interval maxS (offset + 1) fuel s2
    else some strikes

/-- `generate_smart_strikes`: price-tier interval, banker's rounding to
the ATM strike, outward expansion, then sort by distance from spot and
keep the first `max_strikes`. -/
def generate_smart_strikes (spot : ℚ) (max_strikes : Nat) : Option (List ℚ) :=
  let interval : ℚ :=
    if spot < 50 then 5 / 2
    else if spot < 200 then 5
    else if spot < 500 then 10 else 25
  let atm : ℚ := pyRound (spot / interval) * interval
  let fuel := max_strikes + (Int.toNat ⌈-atm / interval⌉ + 1)
  (smartLoop atm interval max_strikes 1 fuel [atm]).map fun strikes =>
    (strikes.insertionSort (distLE spot)).take max_strikes

theorem pyRound_nonneg {x : ℚ} (hx : 0 ≤ x) : 0 ≤ pyRound x := by
  have hf : (0 : ℤ) ≤ ⌊x⌋ := Int.floor_nonneg.mpr hx
  rw [pyRound]
  split_ifs <;> omega

theorem smartLoop_spec (atm interval : ℚ) (maxS : Nat) (hintv : 0 < interval)
    (hatm : 0 ≤ atm) :
    ∀ (fuel offset : Nat) (strikes : List ℚ), 1 ≤ offset →
      maxS ≤ fuel + strikes.length →
      ∃ l, smartLoop atm interval maxS offset fuel strikes = some l ∧ maxS ≤ l.length := by
  intro fuel
  induction fuel with
  | zero =>
    intro offset strikes _ hlen
    simp only [smartLoop]
    rw [if_neg (by omega)]
    exact ⟨strikes, rfl, by omega⟩
  | succ f ih =>
    intro offset strikes hoff hlen
    simp only [smartLoop]
    by_cases hguard : strikes.length < maxS
    · rw [if_pos hguard]
      have hoffq : (1 : ℚ) ≤ (offset : ℚ) := by exact_mod_cast hoff
      have hupper : 0 < atm + (offset : ℚ) * interval := by nlinarith
      rw [if_pos hupper]
      by_cases hc2 : (strikes ++ [atm + (offset : ℚ) * interval]).length < maxS ∧
          0 < atm - (offset : ℚ) * interval
      · rw [if_pos hc2]
        apply ih (offset + 1) _ (by omega)
        simp only [List.length_append, List.length_singleton]
        omega
      · rw [if_neg hc2]
        apply ih (offset + 1) _ (by omega)
        simp only [List.length_append, List.length_singleton]
        omega
    · rw [if_neg hguard]
      exact ⟨strikes, rfl, by omega⟩

/-- C10: for every positive spot price and `max_strikes ≥ 1`, the
outward-expansion loop of `generate_smart_strikes` terminates (the
fuelled loop returns `some` strictly before exhausting its fuel budget)
and the function returns exactly `max_strikes` strikes sorted by
nondecreasing distance from the spot price. -/
theorem C10_generate_smart_strikes :
    ∀ (spot : ℚ) (max_strikes : Nat), 0 < spot → 1 ≤ max_strikes →
      ∃ l, generate_smart_strikes spot max_strikes = some l ∧
        l.length = max_strikes ∧ List.Sorted (distLE spot) l := by
  intro spot maxS hspot hmax
  rw [generate_smart_strikes]
  have hintv : (0 : ℚ) <
      (if spot < 50 then (5 / 2 : ℚ) else if spot < 200 then 5
       else if spot < 500 then 10 else 25) := by
    split_ifs <;> norm_num
  have hatm : (0 : ℚ) ≤ (pyRound (spot /
      (if spot < 50 then (5 / 2 : ℚ) else if spot < 200 then 5
       else if spot < 500 then 10 else 25)) : ℚ) *
      (if spot < 50 then (5 / 2 : ℚ) else if spot < 200 then 5
       else if spot < 500 then 10 else 25) := by
    apply mul_nonneg _ (le_of_lt hintv)
    have : 0 ≤ pyRound (spot /
        (if spot < 50 then (5 / 2 : ℚ) else if spot < 200 then 5
         else if spot < 500 then 10 else 25)) :=
      pyRound_nonneg (le_of_lt (div_pos hspot hintv))
    exact_mod_cast this
  obtain ⟨l, hl, hlen⟩ := smartLoop_spec _ _ maxS hintv hatm
    (maxS + (Int.toNat ⌈-((pyRound (spot /
      (if spot < 50 then (5 / 2 : ℚ) else if spot < 200 then 5
       else if spot < 500 then 10 else 25)) : ℚ) *
      (if spot < 50 then (5 / 2 : ℚ) else if spot < 200 then 5
       else if spot < 500 then 10 else 25)) /
      (if spot < 50 then (5 / 2 : ℚ) else if spot < 200 then 5
       else if spot < 500 then 10 else 25)⌉ + 1))
    1 [_] (le_refl 1) (by simp; omega)
  rw [hl]
  refine ⟨_, rfl, ?_, ?_⟩
  · rw [List.length_take, (List.perm_insertionSort (distLE spot) l).length_eq]
    omega
  · exact List.Pairwise.sublist (List.take_sublist _ _)
      (List.sorted_insertionSort (distLE spot) l)

theorem C10_generate_smart_strikes_witness :
    0 < (3 : ℚ) ∧ 1 ≤ 2 ∧
    ∃ l, generate_smart_strikes 3 2 = some l ∧
      l.length = 2 ∧ List.Sorted (distLE 3) l :=
  ⟨by norm_num, by omega, C10_generate_smart_strikes 3 2 (by norm_num) (by omega)⟩

/-! ### Contract discovery

`find_nearest_expiration`, `try_fetch_contract_iv`,
`brute_force_find_contract` (src/utils.py:387-415, 465-601).  Calendar
dates are epoch-day integers (day 0 = 1970-01-01, a Thursday);
`strptime`/`strftime("%y%m%d")` are abstract parser/formatter
parameters `toDate`/`fmtYMD`; the HTTP client is a function from
contract symbol to `Option` historic-record list, `none` being the
`except` path that `try_fetch_contract_iv` catches.  Each function
returns, besides the Python value, the list of contract symbols
actually probed, in issue order (`asyncio.gather` preserves task
order, and the result scan follows that order). -/

/-- Python `date.weekday()`: Monday = 0. -/
def weekday (d : ℤ) : ℤ := (d + 3) % 7

/-- `find_nearest_expiration`: the closest Friday, ties toward the
following Friday. -/
def find_nearest_expiration (target : ℤ) : ℤ :=
  let days_until_friday := (4 - weekday target) % 7
  if days_until_friday = 0 then target
  else
    let next_friday := target + days_until_friday
    let days_since0 := (weekday target - 4) % 7
    let days_since := if days_since0 = 0 then 7 else days_since0
    let prev_friday := target - days_since
    if |next_friday - target| ≤ |prev_friday - target| then next_friday else prev_friday

structure HistRecord where
  date : List Char
  implied_volatility : Option ℚ
deriving DecidableEq

structure FoundContract where
  contract_id : List Char
  ticker : List Char
  expiration : ℤ
  isCall : Bool
  strike : ℚ
  iv : ℚ
deriving DecidableEq

/-- `try_fetch_contract_iv`: fetch the contract's historic records
(`none` models any raised exception, caught into `None`), then return
the first record dated `analysis_date_str` whose `implied_volatility`
is usable, scaled ×100; records with a matching date but unusable IV
are skipped and the scan continues. -/
def try_fetch_contract_iv (fetch : List Char → Option (List HistRecord))
    (contract_id analysis_date_str ticker : List Char) (exp_date : ℤ)
    (isCall : Bool) (strike : ℚ) : Option FoundContract :=
  match fetch contract_id with
  | none => none
  | some recs =>
    recs.findSome? fun r =>
      if r.date = analysis_date_str then
        r.implied_volatility.map fun v =>
          { contract_id := contract_id, ticker := ticker, expiration := exp_date,
            isCall := isCall, strike := strike, iv := v * 100 }
      else none

/-- `f"{int(strike * 1000):08d}"`. -/
def strike_code (strike : ℚ) : List Char := natDigits 8 (Int.toNat ⌊strike * 1000⌋)

/-- `f"{ticker}{exp_str}{opt_type_code}{strike_code}"`. -/
def contract_symbol (ticker : List Char) (fmtYMD : ℤ → List Char) (exp : ℤ)
    (code : Char) (strike : ℚ) : List Char :=
  ticker ++ fmtYMD exp ++ [code] ++ strike_code strike

/-- The candidate list built for one expiration: strikes × option-type
codes, in nested loop order. -/
def candidate_symbols (ticker : List Char) (fmtYMD : ℤ → List Char) (strikes : List ℚ)
    (types : List Char) (exp : ℤ) : List (List Char × Char × ℚ) :=
  strikes.flatMap fun strike => types.map fun code =>
    (contract_symbol ticker fmtYMD exp code strike, code, strike)

/-- One expiration's concurrent probe batch: all candidates issued,
first non-`None` result (in task order) returned. -/
def run_expiration (fetch : List Char → Option (List HistRecord)) (fmtYMD : ℤ → List Char)
    (ticker analysis : List Char) (types : List Char) (strikes : List ℚ) (exp : ℤ) :
    List (List Char) × Option FoundContract :=
  let cands := candidate_symbols ticker fmtYMD strikes types exp
  (cands.map fun c => c.1,
   cands.findSome? fun c =>
     try_fetch_contract_iv fetch c.1 analysis ticker exp (c.2.1 == 'C') c.2.2)

/-- `for exp_date in expirations_to_try`: stop at the first expiration
whose batch yields a result; later expirations are not probed. -/
def expiration_loop (fetch : List Char → Option (List HistRecord)) (fmtYMD : ℤ → List Char)
    (ticker analysis : List Char) (types : List Char) (strikes : List ℚ) :
    List ℤ → List (List Char) × Option FoundContract
  | [] => ([], none)
  | e :: rest =>
    let r := run_expiration fetch fmtYMD ticker analysis types strikes e
    match r.2 with
    | some f => (r.1, some f)
    | none =>
      let r2 := expiration_loop fetch fmtYMD ticker analysis types strikes rest
      (r.1 ++ r2.1, r2.2)

/-- Python `min(xs, key=...)` over a nonempty list: the first minimum
under the key. -/
def minByKey (key : ℤ → ℤ) (x : ℤ) (xs : List ℤ) : ℤ :=
  xs.foldl (fun b y => if key y < key b then y else b) x

/-- `brute_force_find_contract`.  `option_types = none` defaults to
calls only; an empty `available_expirations` list is falsy in Python,
so only a nonempty list combined with `analysis_date >= today` uses the
closest available expiration — otherwise the nearest-Friday ±1-week
band is tried.  Returns (symbols probed, result). -/
def brute_force_find_contract (fetch : List Char → Option (List HistRecord))
    (toDate : List Char → ℤ) (fmtYMD : ℤ → List Char) (today : ℤ)
    (ticker : List Char) (target_exp_date : ℤ) (spot_price : ℚ)
    (analysis_date_str : List Char) (option_types : Option (List Char))
    (available_expirations : Option (List (List Char))) :
    List (List Char) × Option FoundContract :=
  let types := option_types.getD ['C']
  let analysis_date := toDate analysis_date_str
  let expirations_to_try : List ℤ :=
    match available_expirations with
    | some (e :: es) =>
      if today ≤ analysis_date then
        [minByKey (fun d => |d - target_exp_date|) (toDate e) (es.map toDate)]
      else
        [find_nearest_expiration target_exp_date - 7, find_nearest_expiration target_exp_date,
         find_nearest_expiration target_exp_date + 7]
    | _ =>
      [find_nearest_expiration target_exp_date - 7, find_nearest_expiration target_exp_date,
       find_nearest_expiration target_exp_date + 7]
  let strikes := (generate_smart_strikes spot_price 6).getD []
  expiration_loop fetch fmtYMD ticker analysis_date_str types strikes expirations_to_try

theorem run_expiration_none (fetch : List Char → Option (List HistRecord))
    (fmtYMD : ℤ → List Char) (ticker analysis : List Char) (types : List Char)
    (strikes : List ℚ) (exp : ℤ)
    (h : ∀ sym ∈ (run_expiration fetch fmtYMD ticker analysis types strikes exp).1,
      ∀ recs, fetch sym = some recs → ∀ r ∈ recs, r.date ≠ analysis) :
    (run_expiration fetch fmtYMD ticker analysis types strikes exp).2 = none := by
  simp only [run_expiration] at h ⊢
  rw [List.findSome?_eq_none_iff]
  intro c hc
  have hsym : c.1 ∈ (candidate_symbols ticker fmtYMD strikes types exp).map fun c => c.1 :=
    List.mem_map.mpr ⟨c, hc, rfl⟩
  rw [try_fetch_contract_iv]
  cases hf : fetch c.1 with
  | none => rfl
  | some recs =>
    rw [List.findSome?_eq_none_iff]
    intro r hr
    rw [if_neg (h c.1 hsym recs hf r hr)]

theorem expiration_loop_none (fetch : List Char → Option (List HistRecord))
    (fmtYMD : ℤ → List Char) (ticker analysis : List Char) (types : List Char)
    (strikes : List ℚ) :
    ∀ exps : List ℤ,
      (∀ sym ∈ (expiration_loop fetch fmtYMD ticker analysis types strikes exps).1,
        ∀ recs, fetch sym = some recs → ∀ r ∈ recs, r.date ≠ analysis) →
      (expiration_loop fetch fmtYMD ticker analysis types strikes exps).2 = none := by
  intro exps
  induction exps with
  | nil => intro _; rfl
  | cons e rest ih =>
    intro h
    simp only [expiration_loop] at h ⊢
    cases hre : (run_expiration fetch fmtYMD ticker analysis types strikes e).2 with
    | some f =>
      exfalso
      rw [hre] at h
      have := run_expiration_none fetch fmtYMD ticker analysis types strikes e
        (fun sym hsym => h sym hsym)
      rw [hre] at this
      exact Option.noConfusion this
    | none =>
      rw [hre] at h
      simp only at h ⊢
      apply ih
      intro sym hsym
      exact h sym (List.mem_append.mpr (Or.inr hsym))

/-- C8: `brute_force_find_contract` with an empty candidate set (an
explicit empty list of option sides) returns no contract and issues no
probe at all; and whenever every probe actually issued across the
expiration band finds no historic record dated `analysis_date_str`, the
function returns none. -/
theorem brute_force_eq (fetch : List Char → Option (List HistRecord))
    (toDate : List Char → ℤ) (fmtYMD : ℤ → List Char) (today : ℤ) (ticker : List Char)
    (target : ℤ) (spot : ℚ) (analysis : List Char) (types : Option (List Char))
    (avail : Option (List (List Char))) :
    brute_force_find_contract fetch toDate fmtYMD today ticker target spot analysis
        types avail =
      expiration_loop fetch fmtYMD ticker analysis (types.getD ['C'])
        ((generate_smart_strikes spot 6).getD [])
        (match avail with
         | some (e :: es) =>
           if today ≤ toDate analysis then
             [minByKey (fun d => |d - target|) (toDate e) (es.map toDate)]
           else
             [find_nearest_expiration target - 7, find_nearest_expiration target,
              find_nearest_expiration target + 7]
         | _ =>
           [find_nearest_expiration target - 7, find_nearest_expiration target,
            find_nearest_expiration target + 7]) := rfl

theorem expiration_loop_no_types (fetch : List Char → Option (List HistRecord))
    (fmtYMD : ℤ → List Char) (ticker analysis : List Char) (strikes : List ℚ) :
    ∀ exps : List ℤ,
      expiration_loop fetch fmtYMD ticker analysis [] strikes exps = ([], none) := by
  intro exps
  induction exps with
  | nil => rfl
  | cons e rest ih =>
    have hc : candidate_symbols ticker fmtYMD strikes [] e = [] := by
      simp [candidate_symbols]
    simp only [expiration_loop, run_expiration, hc, List.map_nil, List.findSome?_nil, ih]
    rfl

/-- C8: `brute_force_find_contract` with an empty candidate set (an
explicit empty list of option sides) returns no contract and issues no
probe at all; and whenever every probe actually issued across the
expiration band finds no historic record dated `analysis_date_str`, the
function returns none. -/
theorem C8_brute_force_find_contract :
    (∀ (fetch : List Char → Option (List HistRecord)) (toDate : List Char → ℤ)
      (fmtYMD : ℤ → List Char) (today : ℤ) (ticker : List Char) (target : ℤ)
      (spot : ℚ) (analysis : List Char) (avail : Option (List (List Char))),
      brute_force_find_contract fetch toDate fmtYMD today ticker target spot analysis
        (some []) avail = ([], none)) ∧
    (∀ (fetch : List Char → Option (List HistRecord)) (toDate : List Char → ℤ)
      (fmtYMD : ℤ → List Char) (today : ℤ) (ticker : List Char) (target : ℤ)
      (spot : ℚ) (analysis : List Char) (types : Option (List Char))
      (avail : Option (List (List Char))),
      (∀ sym ∈ (brute_force_find_contract fetch toDate fmtYMD today ticker target spot
          analysis types avail).1,
        ∀ recs, fetch sym = some recs → ∀ r ∈ recs, r.date ≠ analysis) →
      (brute_force_find_contract fetch toDate fmtYMD today ticker target spot
        analysis types avail).2 = none) := by
  constructor
  · intro fetch toDate fmtYMD today ticker target spot analysis avail
    rw [brute_force_eq]
    exact expiration_loop_no_types fetch fmtYMD ticker analysis _ _
  · intro fetch toDate fmtYMD today ticker target spot analysis types avail h
    rw [brute_force_eq] at h ⊢
    exact expiration_loop_none fetch fmtYMD ticker analysis _ _ _ h

theorem C8_brute_force_find_contract_witness :
    brute_force_find_contract (fun _ => none) (fun _ => 0) (fun _ => []) 0 [] 0 100 []
      (some []) none = ([], none) ∧
    (brute_force_find_contract (fun _ => none) (fun _ => 0) (fun _ => []) 0 [] 0 100 []
      (some ['C']) none).2 = none :=
  ⟨C8_brute_force_find_contract.1 (fun _ => none) (fun _ => 0) (fun _ => []) 0 [] 0 100 []
      none,
   C8_brute_force_find_contract.2 (fun _ => none) (fun _ => 0) (fun _ => []) 0 [] 0 100 []
      (some ['C']) none
      (by intro sym hsym recs hrecs; exact absurd hrecs (by simp))⟩

end GLDfish
